import Mathlib

/-!
Verification of the chirc message framing, parsing and registration core.

The definitions below are a shallow embedding of `src/message.c` and
`src/main.c`: byte buffers and frames are `List Char` (ASCII), machine
pointers become explicit offsets over `Nat`, and operations whose C
original would perform an out-of-bounds access are modelled as
`Option`-valued, returning `none` exactly where the C program has
undefined behaviour.
-/

namespace Chirc

/-- Pass 1 of `parse_message` (message.c lines 10-17): walk the frame left to
right, incrementing `m->numArgs` on each ASCII space and breaking at the
first `:`. -/
def countArgs : List Char → Nat
  | [] => 0
  | c :: rest =>
    if c = ' ' then countArgs rest + 1
    else if c = ':' then 0
    else countArgs rest

/-- The inner scan of pass 2 (message.c lines 23-32).  The C loop walks the
index `offset` forward while `offset < message_length`; here `rem` is the
unread suffix `s.drop offset` (so the guard becomes `rem ≠ []`) and `len`
is the total frame length.  A `:` sets `start_offset++` and
`offset = message_length + 1`; a space breaks with `offset++`; any other
byte just advances `offset`. -/
def scanTokenAux (len : Nat) : List Char → Nat → Nat → Nat × Nat
  | [], start, offset => (start, offset)
  | c :: rem, start, offset =>
    if c = ':' then (start + 1, len + 1)
    else if c = ' ' then (start, offset + 1)
    else scanTokenAux len rem start (offset + 1)

/-- The inner scan of message.c lines 23-32 starting at position `offset`
with token start `start`; returns the final `(start_offset, offset)`. -/
def scanToken (s : List Char) (start offset : Nat) : Nat × Nat :=
  scanTokenAux s.length (s.drop offset) start offset

/-- message.c lines 33-35: after the inner scan,
`if (offset == message_length) offset++`. -/
def bumpOffset (s : List Char) (offset : Nat) : Nat :=
  if offset = s.length then offset + 1 else offset

/-- The outer loop of pass 2 (message.c lines 20-47), with `n` the number of
iterations left (the C loop runs `arg_number` from `-1` to `numArgs - 1`,
i.e. `numArgs + 1` iterations).  Each iteration scans one token and copies
`arg_len - 1 = offset - start_offset - 1` bytes starting at `start_offset`.
When `arg_len = 0` the C code calls `memcpy` with size `(size_t)(-1)` and
writes to `arg[-1]`, which is a crash: that case is modelled as `none`. -/
def collectArgs (s : List Char) : Nat → Nat → Option (List (List Char))
  | _, 0 => some []
  | offset, n + 1 =>
    let p := scanToken s offset offset
    let offset2 := bumpOffset s p.2
    let argLen := offset2 - p.1
    if argLen = 0 then none
    else
      match collectArgs s offset2 n with
      | none => none
      | some rest => some ((s.drop p.1).take (argLen - 1) :: rest)

/-- The `msg` struct of message.c lines 1-5.  Slots are `Option`-valued so
that `get_arg` can null them out; `parse_message` fills every slot with
`some`.  The C field `numArgs` is `args.length`. -/
structure msg where
  command : List Char
  args : List (Option (List Char))
deriving DecidableEq

/-- message.c lines 7-49: two-pass parse.  The first collected token (the
C iteration `arg_number = -1`) is the command, the rest are the arguments. -/
def parse_message (s : List Char) : Option msg :=
  match collectArgs s 0 (countArgs s + 1) with
  | some (cmd :: rest) => some ⟨cmd, rest.map some⟩
  | _ => none

/-- message.c lines 52-56: return `m->args[arg_index]` and null the slot.
An out-of-range index reads past the array in C (undefined behaviour);
it is modelled as reading `none` and leaving the message unchanged. -/
def get_arg (m : msg) (i : Nat) : Option (List Char) × msg :=
  (m.args.getD i none, { m with args := m.args.set i none })

/-- The per-connection session state, client.h as used by main.c: `NULL`
pointers are `none`. -/
structure client where
  nick : Option (List Char)
  username : Option (List Char)
  fullName : Option (List Char)
  welcomeMessageSent : Bool
deriving DecidableEq

/-- The state a freshly accepted connection starts in (main.c lines 229-233). -/
def initClient : client := ⟨none, none, none, false⟩

/-- main.c lines 63-76: write the welcome reply and set
`c->welcomeMessageSent = true`.  The second component counts the welcome
replies emitted (always 1 per call). -/
def send_welcome_message (c : client) : client × Nat :=
  ({ c with welcomeMessageSent := true }, 1)

/-- main.c lines 78-98: parse the frame, dispatch on the command name,
then emit the welcome reply if nick and username are set and the welcome
was not sent yet.  Returns the new state and the number of welcome
replies emitted; `none` when `parse_message` crashes. -/
def process_message (s : List Char) (c : client) : Option (client × Nat) :=
  match parse_message s with
  | none => none
  | some m =>
    let c1 :=
      if m.command = "NICK".toList then
        { c with nick := (get_arg m 0).1 }
      else if m.command = "USER".toList then
        let r0 := get_arg m 0
        let r3 := get_arg r0.2 3
        { c with username := r0.1, fullName := r3.1 }
      else c
    if c1.nick.isSome ∧ c1.username.isSome ∧ c1.welcomeMessageSent = false then
      some (send_welcome_message c1)
    else some (c1, 0)

/-- The argument indices each handler in `process_message` passes to
`get_arg`: main.c line 82 for NICK, lines 86-87 for USER. -/
def handlerAccesses (command : List Char) : List Nat :=
  if command = "NICK".toList then [0]
  else if command = "USER".toList then [0, 3]
  else []

/-- Process a list of frames in order on one connection, accumulating the
number of welcome replies emitted.  A crashing frame stops the run. -/
def processList : List (List Char) → client → client × Nat
  | [], c => (c, 0)
  | s :: rest, c =>
    match process_message s c with
    | none => (c, 0)
    | some (c1, w) =>
      let r := processList rest c1
      (r.1, w + r.2)

/-- The scan loop of `process_buffered_messages` (main.c lines 101-108),
fuel-indexed so that it computes by structural recursion: the loop runs
while `i + 1 < buffer_offset` and `i` increases by one per iteration, so
any `fuel ≥ buffer_offset - i` gives the exact loop behaviour (callers
pass `fuel = buffer_offset`, starting from `i = 1`).  Accumulates the
frame slices handed to `process_message` and returns them together with
the final `message_start_offset`. -/
def pbmLoopF (buffer : List Char) (bo : Nat) :
    Nat → Nat → Nat → List (List Char) → List (List Char) × Nat
  | 0, _, mso, acc => (acc, mso)
  | fuel + 1, i, mso, acc =>
    if i + 1 < bo then
      if buffer.getD i ' ' = '\r' ∧ buffer.getD (i + 1) ' ' = '\n' then
        pbmLoopF buffer bo fuel (i + 1) (i + 2) (acc ++ [(buffer.drop mso).take (i - mso)])
      else pbmLoopF buffer bo fuel (i + 1) mso acc
    else (acc, mso)

/-- main.c lines 100-114.  Returns the dispatched frame slices, the
consumed offset returned to the caller, and the number of WARNING log
events emitted (1 exactly on the buffer-full-with-no-boundary branch of
lines 109-112, else 0). -/
def process_buffered_messages (buffer : List Char) (buffer_size buffer_offset : Nat) :
    List (List Char) × Nat × Nat :=
  let r := pbmLoopF buffer buffer_offset buffer_offset 1 0 []
  if r.2 = 0 ∧ buffer_offset = buffer_size then (r.1, buffer_size, 1)
  else (r.1, r.2, 0)

/-- The compaction step (main.c lines 130-131):
`memcpy(buffer, buffer + consumed, consumed); buffer_offset -= consumed`,
where `buffer` is a `buffer_size`-byte allocation.  The memcpy reads the
source bytes `[consumed, consumed + consumed)`; when that range extends
past the allocation (`buffer_size < consumed + consumed`, with a nonzero
size) the read is out of bounds — undefined behaviour that can crash the
process, modelled as `none`.  Otherwise the new valid region is
`[0, old_offset - consumed)`; position `p` holds the copied byte
`old[consumed + p]` when `p < consumed` (with `dst < src`, each source
byte is read before being overwritten) and the stale byte `old[p]`
otherwise.  Every position of the new valid region is filled from inside
the old valid region; source bytes past the old write offset but inside
the allocation land beyond the new valid region and are unobservable. -/
def compact (valid : List Char) (buffer_size consumed : Nat) : Option (List Char) :=
  if 0 < consumed ∧ buffer_size < consumed + consumed then none
  else some ((List.range (valid.length - consumed)).map fun p =>
    if p < consumed then valid.getD (consumed + p) ' ' else valid.getD p ' ')

/-- Result of the blocking `read` at main.c line 122: either bytes (possibly
zero on a closed socket) or the error `-1`. -/
inductive ReadResult where
  | data (bytes : List Char)
  | readError
deriving DecidableEq

/-- What one iteration of the connection loop does.  `closeConnection`
(terminate only this connection, releasing its buffer and session) is the
behaviour the spec requires on a failed read; `exitProcess` is `exit(1)`;
`crashed` is the undefined-behaviour path of the compaction memcpy (the
frames dispatched and WARNING events emitted before the memcpy are kept
as its payload). -/
inductive StepOutcome where
  | continued (valid : List Char) (msgs : List (List Char)) (warnings : Nat)
  | exitProcess
  | closeConnection
  | crashed (msgs : List (List Char)) (warnings : Nat)
deriving DecidableEq

/-- One iteration of the while loop of `process_client_messages`
(main.c lines 121-132): on a read error the code logs and calls `exit(1)`;
otherwise it appends the bytes, splits frames and compacts the buffer,
crashing if the compaction memcpy reads outside the allocation. -/
def process_client_messages_step (valid : List Char) (bs : Nat) (r : ReadResult) : StepOutcome :=
  match r with
  | .readError => .exitProcess
  | .data chunk =>
    let v := valid ++ chunk
    let res := process_buffered_messages v bs v.length
    match compact v bs res.2.1 with
    | none => .crashed res.1 res.2.2
    | some buf => .continued buf res.1 res.2.2

/-- Run the connection loop over a list of successful reads (a partition of
the input byte stream), returning all dispatched frames in order and the
final buffer contents.  The frames of a step are dispatched before its
compaction runs, so on a crashing compaction they are kept and the
remaining reads never happen. -/
def runPartition (bs : Nat) : List (List Char) → List Char → List (List Char) × List Char
  | [], valid => ([], valid)
  | chunk :: rest, valid =>
    let v := valid ++ chunk
    let res := process_buffered_messages v bs v.length
    match compact v bs res.2.1 with
    | none => (res.1, v)
    | some buf =>
      let r2 := runPartition bs rest buf
      (res.1 ++ r2.1, r2.2)

/-! ### Specification-side definitions

These definitions follow the words of the specification (and of the
amended claims); the theorems below relate them to the source-derived
definitions above. -/

/-- A byte that delimits nothing inside a token: neither the space
separator nor the colon that introduces a trailing parameter. -/
def notDelim (c : Char) : Bool := !(c == ' ') && !(c == ':')

/-- Declarative account of one pass-2 iteration round of `parse_message`:
the produced argument list as a function of the remaining frame suffix.
`none` marks the inputs on which the reference implementation performs its
out-of-bounds `memcpy` (a token slot left empty by a trailing space). -/
def specCollect (rem : List Char) : Option (List (List Char)) :=
  match hd : rem.dropWhile notDelim with
  | [] => some [rem]
  | c :: u =>
    if c = ':' then some [rem.drop 1]
    else if u = [] then none
    else (specCollect u).map (rem.takeWhile notDelim :: ·)
termination_by rem.length
decreasing_by
  have h1 := (List.dropWhile_sublist (l := rem) (p := notDelim)).length_le
  rw [hd] at h1
  simp only [List.length_cons] at h1
  omega

/-- The count the spec describes for pass 1: the number of ASCII spaces
occurring before the first colon of the frame. -/
def specSpacesBeforeColon (s : List Char) : Nat :=
  (s.takeWhile fun c => !(c == ':')).count ' '

/-- The boundary indices of the amended frame-splitting claim, fuel-indexed
like `pbmLoopF`: all indices `j ≥ i` with `j + 1 < bo` where the buffer
holds CR LF. -/
def boundaryIndicesF (buffer : List Char) (bo : Nat) : Nat → Nat → List Nat
  | 0, _ => []
  | fuel + 1, i =>
    if i + 1 < bo then
      (if buffer.getD i ' ' = '\r' ∧ buffer.getD (i + 1) ' ' = '\n' then [i] else [])
        ++ boundaryIndicesF buffer bo fuel (i + 1)
    else []

/-- All recognized CR LF boundary indices of a buffer, scanning from `i`. -/
def boundaryIndices (buffer : List Char) (bo i : Nat) : List Nat :=
  boundaryIndicesF buffer bo bo i

/-- The message slices determined by a list of boundary indices: each
message runs from the end of the previous boundary (or the buffer start)
up to, and excluding, its CR LF. -/
def segmentsFrom (buffer : List Char) : Nat → List Nat → List (List Char)
  | _, [] => []
  | start, i :: rest => (buffer.drop start).take (i - start) :: segmentsFrom buffer (i + 2) rest

/-! ### Lemmas about delimiters and pass 1 -/

lemma notDelim_true_iff {c : Char} : notDelim c = true ↔ (c ≠ ' ' ∧ c ≠ ':') := by
  simp [notDelim]

lemma notDelim_false_iff {c : Char} : notDelim c = false ↔ (c = ' ' ∨ c = ':') := by
  rw [← Bool.not_eq_true, notDelim_true_iff]
  tauto

lemma mem_takeWhile_notDelim : ∀ {l : List Char} {c : Char},
    c ∈ l.takeWhile notDelim → notDelim c = true := by
  intro l
  induction l with
  | nil => intro c hc; simp [List.takeWhile] at hc
  | cons a l ih =>
    intro c hc
    rw [List.takeWhile_cons] at hc
    by_cases ha : notDelim a = true
    · rw [if_pos ha] at hc
      rcases List.mem_cons.1 hc with h | h
      · exact h ▸ ha
      · exact ih h
    · rw [if_neg ha] at hc
      simp at hc

lemma countArgs_append_notDelim {t l : List Char} (ht : ∀ c ∈ t, notDelim c = true) :
    countArgs (t ++ l) = countArgs l := by
  induction t with
  | nil => rfl
  | cons c t ih =>
    have hc := notDelim_true_iff.1 (ht c (List.mem_cons_self c t))
    have ih2 := ih fun d hd => ht d (List.mem_cons_of_mem c hd)
    simp [countArgs, hc.1, hc.2, ih2]

lemma countArgs_notDelim {t : List Char} (ht : ∀ c ∈ t, notDelim c = true) :
    countArgs t = 0 := by
  have h := countArgs_append_notDelim (l := []) ht
  simpa using h

/-! ### Characterizing the pass-2 inner scan -/

lemma scanTokenAux_all (len : Nat) :
    ∀ (rem : List Char) (start offset : Nat), rem.dropWhile notDelim = [] →
      scanTokenAux len rem start offset = (start, offset + rem.length) := by
  intro rem
  induction rem with
  | nil => intro start offset _; simp [scanTokenAux]
  | cons c rem ih =>
    intro start offset h
    rw [List.dropWhile_cons] at h
    by_cases hc : notDelim c = true
    · rw [if_pos hc] at h
      have hc2 := notDelim_true_iff.1 hc
      rw [scanTokenAux, if_neg hc2.2, if_neg hc2.1, ih start (offset + 1) h]
      simp only [List.length_cons, Prod.mk.injEq]
      exact ⟨trivial, by omega⟩
    · rw [if_neg hc] at h
      exact absurd h (List.cons_ne_nil c rem)

lemma scanTokenAux_colon (len : Nat) :
    ∀ (rem : List Char) (start offset : Nat) (u : List Char),
      rem.dropWhile notDelim = ':' :: u →
      scanTokenAux len rem start offset = (start + 1, len + 1) := by
  intro rem
  induction rem with
  | nil => intro start offset u h; simp [List.dropWhile] at h
  | cons c rem ih =>
    intro start offset u h
    rw [List.dropWhile_cons] at h
    by_cases hc : notDelim c = true
    · rw [if_pos hc] at h
      have hc2 := notDelim_true_iff.1 hc
      rw [scanTokenAux, if_neg hc2.2, if_neg hc2.1]
      exact ih start (offset + 1) u h
    · rw [if_neg hc] at h
      have hc3 : c = ':' := (List.cons.injEq _ _ _ _ ▸ h).1
      rw [scanTokenAux, if_pos hc3]

lemma scanTokenAux_space (len : Nat) :
    ∀ (rem : List Char) (start offset : Nat) (u : List Char),
      rem.dropWhile notDelim = ' ' :: u →
      scanTokenAux len rem start offset =
        (start, offset + (rem.takeWhile notDelim).length + 1) := by
  intro rem
  induction rem with
  | nil => intro start offset u h; simp [List.dropWhile] at h
  | cons c rem ih =>
    intro start offset u h
    rw [List.dropWhile_cons] at h
    by_cases hc : notDelim c = true
    · rw [if_pos hc] at h
      have hc2 := notDelim_true_iff.1 hc
      rw [scanTokenAux, if_neg hc2.2, if_neg hc2.1, ih start (offset + 1) u h,
        List.takeWhile_cons, if_pos hc]
      simp only [List.length_cons, Prod.mk.injEq]
      exact ⟨trivial, by omega⟩
    · rw [if_neg hc] at h
      have hc3 : c = ' ' := (List.cons.injEq _ _ _ _ ▸ h).1
      have hne : c ≠ ':' := by rw [hc3]; decide
      rw [scanTokenAux, if_neg hne, if_pos hc3, List.takeWhile_cons, if_neg hc]
      simp

/-! ### The pass-2 outer loop versus its declarative account -/

lemma specCollect_nil_case {rem : List Char} (h : rem.dropWhile notDelim = []) :
    specCollect rem = some [rem] := by
  rw [specCollect]
  split
  · rfl
  · next c u heq => rw [h] at heq; exact absurd heq (by simp)

lemma specCollect_colon_case {rem u : List Char}
    (h : rem.dropWhile notDelim = ':' :: u) :
    specCollect rem = some [rem.drop 1] := by
  rw [specCollect]
  split
  · next heq => rw [h] at heq; exact absurd heq (by simp)
  · next c v heq =>
    rw [h] at heq
    injection heq.symm with h1 h2
    subst h1
    rw [if_pos rfl]

lemma specCollect_space_nil_case {rem : List Char}
    (h : rem.dropWhile notDelim = [' ']) :
    specCollect rem = none := by
  rw [specCollect]
  split
  · next heq => rw [h] at heq; exact absurd heq (by simp)
  · next c v heq =>
    rw [h] at heq
    injection heq.symm with h1 h2
    subst h1
    subst h2
    rw [if_neg (by decide), if_pos rfl]

lemma specCollect_space_case {rem u : List Char}
    (h : rem.dropWhile notDelim = ' ' :: u) (hu : u ≠ []) :
    specCollect rem = (specCollect u).map (rem.takeWhile notDelim :: ·) := by
  rw [specCollect]
  split
  · next heq => rw [h] at heq; exact absurd heq (by simp)
  · next c v heq =>
    rw [h] at heq
    injection heq.symm with h1 h2
    subst h1
    subst h2
    rw [if_neg (by decide), if_neg hu]

lemma collectArgs_succ (s : List Char) (o n : Nat) :
    collectArgs s o (n + 1) =
      (let p := scanToken s o o
       let offset2 := bumpOffset s p.2
       let argLen := offset2 - p.1
       if argLen = 0 then none
       else match collectArgs s offset2 n with
         | none => none
         | some rest => some ((s.drop p.1).take (argLen - 1) :: rest)) := rfl

lemma collectArgs_zero (s : List Char) (o : Nat) : collectArgs s o 0 = some [] := rfl

lemma collectArgs_past_end {s : List Char} {o : Nat} (h : o = s.length + 1) (n : Nat) :
    collectArgs s o (n + 1) = none := by
  have hdrop : s.drop o = [] := List.drop_eq_nil_iff.2 (by omega)
  have hscan : scanToken s o o = (o, o) := by
    rw [scanToken, hdrop]; rfl
  have hbump : bumpOffset s o = o := by
    rw [bumpOffset, if_neg (by omega)]
  rw [collectArgs_succ]
  simp only [hscan, hbump]
  rw [if_pos (by omega)]

lemma dropWhile_head_false {p : Char → Bool} :
    ∀ {l : List Char} {c : Char} {u : List Char}, l.dropWhile p = c :: u → p c = false := by
  intro l
  induction l with
  | nil => intro c u h; simp [List.dropWhile] at h
  | cons a l ih =>
    intro c u h
    rw [List.dropWhile_cons] at h
    by_cases ha : p a = true
    · rw [if_pos ha] at h; exact ih h
    · rw [if_neg ha] at h
      injection h with h1 h2
      subst h1
      cases hpa : p a
      · rfl
      · exact absurd hpa ha

lemma collectArgs_eq_specCollect :
    ∀ (n : Nat) (rem s : List Char) (o : Nat), rem.length ≤ n →
      s.drop o = rem → o ≤ s.length →
      collectArgs s o (countArgs rem + 1) = specCollect rem := by
  intro n
  induction n with
  | zero =>
    intro rem s o hlen hdrop ho
    have hrem : rem = [] := List.length_eq_zero.1 (Nat.le_zero.1 hlen)
    subst hrem
    have ho2 : o = s.length := by
      have := List.drop_eq_nil_iff.1 hdrop
      omega
    have hscan : scanToken s o o = (o, o) := by rw [scanToken, hdrop]; rfl
    have hbump : bumpOffset s o = o + 1 := by rw [bumpOffset, if_pos ho2]
    rw [specCollect_nil_case (by rfl), countArgs, collectArgs_succ]
    simp only [hscan, hbump]
    rw [if_neg (by omega), collectArgs_zero]
    simp only [hdrop]
    rw [List.take_nil]
  | succ n ih =>
    intro rem s o hlen hdrop ho
    cases hd : rem.dropWhile notDelim with
    | nil =>
      -- the token runs to the end of the frame
      have htw : rem.takeWhile notDelim = rem := by
        have h2 := List.takeWhile_append_dropWhile (p := notDelim) (l := rem)
        rw [hd, List.append_nil] at h2; exact h2
      have hmem : ∀ c ∈ rem, notDelim c = true := fun c hc =>
        mem_takeWhile_notDelim (htw.symm ▸ hc)
      have hca : countArgs rem = 0 := countArgs_notDelim hmem
      have hlenrem : rem.length = s.length - o := by
        rw [← hdrop, List.length_drop]
      have hoff : o + rem.length = s.length := by omega
      have hscan : scanToken s o o = (o, s.length) := by
        rw [scanToken, hdrop, scanTokenAux_all _ _ _ _ hd, hoff]
      have hbump : bumpOffset s s.length = s.length + 1 := by
        rw [bumpOffset, if_pos rfl]
      have htake : (s.drop o).take (s.length + 1 - o - 1) = rem := by
        rw [hdrop]
        have : s.length + 1 - o - 1 = rem.length := by omega
        rw [this, List.take_length]
      rw [specCollect_nil_case hd, hca, collectArgs_succ]
      simp only [hscan, hbump]
      rw [if_neg (by omega), collectArgs_zero, htake]
    | cons c u =>
      have hsplit := List.takeWhile_append_dropWhile (p := notDelim) (l := rem)
      rw [hd] at hsplit
      have hremne : rem ≠ [] := by
        intro h0; rw [h0] at hd; simp [List.dropWhile] at hd
      have holt : o < s.length := by
        rcases Nat.lt_or_ge o s.length with h | h
        · exact h
        · exfalso; apply hremne
          rw [← hdrop]
          exact List.drop_eq_nil_iff.2 h
      have hlenrem : rem.length = s.length - o := by
        rw [← hdrop, List.length_drop]
      have hcd : notDelim c = false := dropWhile_head_false hd
      have hcor : c = ' ' ∨ c = ':' := by
        by_contra hcon
        push_neg at hcon
        have h7 : notDelim c = true := notDelim_true_iff.2 hcon
        rw [hcd] at h7
        exact Bool.false_ne_true h7
      rcases hcor with hsp | hcl
      · -- a space ends the token
        subst hsp
        have hscan : scanToken s o o =
            (o, o + (rem.takeWhile notDelim).length + 1) := by
          rw [scanToken, hdrop]
          exact scanTokenAux_space _ _ _ _ _ hd
        have hlensplit : rem.length = (rem.takeWhile notDelim).length + 1 + u.length := by
          conv_lhs => rw [← hsplit]
          simp only [List.length_append, List.length_cons]
          omega
        have hca : countArgs rem = countArgs u + 1 := by
          conv_lhs => rw [← hsplit]
          rw [countArgs_append_notDelim (fun d hd2 => mem_takeWhile_notDelim hd2)]
          simp [countArgs]
        by_cases hu : u = []
        · -- trailing space: the next iteration crashes
          subst hu
          simp only [List.length_nil] at hlensplit
          have hoff : o + (rem.takeWhile notDelim).length + 1 = s.length := by omega
          have hbump : bumpOffset s (o + (rem.takeWhile notDelim).length + 1) =
              s.length + 1 := by
            rw [bumpOffset, if_pos hoff, hoff]
          rw [specCollect_space_nil_case hd, hca, collectArgs_succ]
          simp only [hscan, hbump]
          rw [if_neg (by omega)]
          rw [collectArgs_past_end rfl]
        · -- a real space-delimited token followed by more input
          have hofflt : o + (rem.takeWhile notDelim).length + 1 < s.length := by
            have hune : u.length ≠ 0 := fun h0 => hu (List.length_eq_zero.1 h0)
            omega
          have hbump : bumpOffset s (o + (rem.takeWhile notDelim).length + 1) =
              o + (rem.takeWhile notDelim).length + 1 := by
            rw [bumpOffset, if_neg (by omega)]
          have htake : (s.drop o).take
              (o + (rem.takeWhile notDelim).length + 1 - o - 1) =
              rem.takeWhile notDelim := by
            rw [hdrop]
            have h3 : o + (rem.takeWhile notDelim).length + 1 - o - 1 =
                (rem.takeWhile notDelim).length := by omega
            rw [h3]
            nth_rewrite 2 [← hsplit]
            exact List.take_left _ _
          have hdropnext : s.drop (o + (rem.takeWhile notDelim).length + 1) = u := by
            have h4 : o + (rem.takeWhile notDelim).length + 1 =
                o + ((rem.takeWhile notDelim).length + 1) := by omega
            rw [h4, ← List.drop_drop, hdrop]
            nth_rewrite 2 [← hsplit]
            have h5 : rem.takeWhile notDelim ++ ' ' :: u =
                (rem.takeWhile notDelim ++ [' ']) ++ u := by
              simp [List.append_assoc]
            rw [h5]
            exact List.drop_left' (by simp)
          have hrec : collectArgs s (o + (rem.takeWhile notDelim).length + 1)
              (countArgs u + 1) = specCollect u := by
            apply ih u s _ _ hdropnext (by omega)
            omega
          rw [specCollect_space_case hd hu, hca, collectArgs_succ]
          simp only [hscan, hbump]
          rw [if_neg (by omega), hrec, htake]
          cases hspec : specCollect u with
          | none => simp
          | some r => simp
      · -- the first colon stops the scan
        subst hcl
        have hca : countArgs rem = 0 := by
          conv_lhs => rw [← hsplit]
          rw [countArgs_append_notDelim (fun d hd2 => mem_takeWhile_notDelim hd2)]
          simp [countArgs]
        have hscan : scanToken s o o = (o + 1, s.length + 1) := by
          rw [scanToken, hdrop]
          exact scanTokenAux_colon _ _ _ _ _ hd
        have hbump : bumpOffset s (s.length + 1) = s.length + 1 := by
          rw [bumpOffset, if_neg (by omega)]
        have hdrop1 : s.drop (o + 1) = rem.drop 1 := by
          rw [← List.drop_drop, hdrop]
        have htake : (s.drop (o + 1)).take (s.length + 1 - (o + 1) - 1) =
            rem.drop 1 := by
          rw [hdrop1]
          have h6 : s.length + 1 - (o + 1) - 1 = (rem.drop 1).length := by
            simp [List.length_drop]
            omega
          rw [h6, List.take_length]
        rw [specCollect_colon_case hd, hca, collectArgs_succ]
        simp only [hscan, hbump]
        rw [if_neg (by omega), collectArgs_zero, htake]


/-! ### Structural facts about the parse -/

lemma parse_message_eq_spec (s : List Char) :
    parse_message s =
      match specCollect s with
      | some (cmd :: rest) => some ⟨cmd, rest.map some⟩
      | _ => none := by
  rw [parse_message,
    collectArgs_eq_specCollect s.length s s 0 (Nat.le_refl _) (List.drop_zero _) (Nat.zero_le _)]

lemma dropWhile_append_of_all {p : Char → Bool} {t l : List Char}
    (h : ∀ c ∈ t, p c = true) : (t ++ l).dropWhile p = l.dropWhile p := by
  induction t with
  | nil => rfl
  | cons a t ih =>
    have ha := h a (List.mem_cons_self a t)
    rw [List.cons_append, List.dropWhile_cons, if_pos ha]
    exact ih fun c hc => h c (List.mem_cons_of_mem a hc)

lemma takeWhile_append_cons_of_all {p : Char → Bool} {t l : List Char} {c : Char}
    (h : ∀ x ∈ t, p x = true) (hc : p c = false) :
    (t ++ c :: l).takeWhile p = t := by
  induction t with
  | nil => rw [List.nil_append, List.takeWhile_cons, if_neg (by simp [hc])]
  | cons a t ih =>
    have ha := h a (List.mem_cons_self a t)
    rw [List.cons_append, List.takeWhile_cons, if_pos ha,
      ih fun x hx => h x (List.mem_cons_of_mem a hx)]

lemma getLast?_cons_ne {α : Type} {a : α} {l : List α} (h : l ≠ []) :
    (a :: l).getLast? = l.getLast? := by
  cases l with
  | nil => exact absurd rfl h
  | cons b l => exact List.getLast?_cons_cons

lemma specCollect_empty : specCollect ([] : List Char) = some [[]] :=
  specCollect_nil_case rfl

lemma specCollect_length :
    ∀ (n : Nat) (rem : List Char) (l : List (List Char)), rem.length ≤ n →
      specCollect rem = some l → l.length = countArgs rem + 1 := by
  intro n
  induction n with
  | zero =>
    intro rem l hlen hspec
    have hrem : rem = [] := List.length_eq_zero.1 (Nat.le_zero.1 hlen)
    subst hrem
    rw [specCollect_empty] at hspec
    injection hspec with h1
    rw [← h1]
    rfl
  | succ n ih =>
    intro rem l hlen hspec
    cases hd : rem.dropWhile notDelim with
    | nil =>
      rw [specCollect_nil_case hd] at hspec
      injection hspec with h1
      have htw : rem.takeWhile notDelim = rem := by
        have h2 := List.takeWhile_append_dropWhile (p := notDelim) (l := rem)
        rw [hd, List.append_nil] at h2
        exact h2
      have hca : countArgs rem = 0 :=
        countArgs_notDelim fun c hc => mem_takeWhile_notDelim (htw.symm ▸ hc)
      rw [← h1, hca]
      rfl
    | cons c u =>
      have hsplit := List.takeWhile_append_dropWhile (p := notDelim) (l := rem)
      rw [hd] at hsplit
      rcases notDelim_false_iff.1 (dropWhile_head_false hd) with hsp | hcl
      · subst hsp
        by_cases hu : u = []
        · subst hu
          rw [specCollect_space_nil_case hd] at hspec
          exact absurd hspec (by simp)
        · rw [specCollect_space_case hd hu] at hspec
          cases hsc : specCollect u with
          | none => rw [hsc] at hspec; exact absurd hspec (by simp)
          | some r =>
            rw [hsc] at hspec
            injection hspec with h1
            have hlensplit : rem.length =
                (rem.takeWhile notDelim).length + 1 + u.length := by
              conv_lhs => rw [← hsplit]
              simp only [List.length_append, List.length_cons]
              omega
            have hrlen := ih u r (by omega) hsc
            have hca : countArgs rem = countArgs u + 1 := by
              conv_lhs => rw [← hsplit]
              rw [countArgs_append_notDelim fun d hd2 => mem_takeWhile_notDelim hd2]
              simp [countArgs]
            rw [← h1, hca]
            simp only [List.length_cons]
            omega
      · subst hcl
        rw [specCollect_colon_case hd] at hspec
        injection hspec with h1
        have hca : countArgs rem = 0 := by
          conv_lhs => rw [← hsplit]
          rw [countArgs_append_notDelim fun d hd2 => mem_takeWhile_notDelim hd2]
          simp [countArgs]
        rw [← h1, hca]
        rfl

lemma specCollect_total :
    ∀ (n : Nat) (rem : List Char), rem.length ≤ n →
      (':' ∈ rem ∨ rem.getLast? ≠ some ' ') →
      ∃ l, specCollect rem = some l := by
  intro n
  induction n with
  | zero =>
    intro rem hlen _
    have hrem : rem = [] := List.length_eq_zero.1 (Nat.le_zero.1 hlen)
    subst hrem
    exact ⟨[[]], specCollect_empty⟩
  | succ n ih =>
    intro rem hlen hok
    cases hd : rem.dropWhile notDelim with
    | nil => exact ⟨[rem], specCollect_nil_case hd⟩
    | cons c u =>
      have hsplit := List.takeWhile_append_dropWhile (p := notDelim) (l := rem)
      rw [hd] at hsplit
      rcases notDelim_false_iff.1 (dropWhile_head_false hd) with hsp | hcl
      · subst hsp
        by_cases hu : u = []
        · subst hu
          exfalso
          rcases hok with hmem | hlast
          · rw [← hsplit] at hmem
            rcases List.mem_append.1 hmem with h | h
            · have := mem_takeWhile_notDelim h
              simp [notDelim] at this
            · simp at h
          · apply hlast
            rw [← hsplit]
            exact List.getLast?_concat _
        · have hok2 : ':' ∈ u ∨ u.getLast? ≠ some ' ' := by
            rcases hok with hmem | hlast
            · left
              rw [← hsplit] at hmem
              rcases List.mem_append.1 hmem with h | h
              · exfalso
                have := mem_takeWhile_notDelim h
                simp [notDelim] at this
              · rcases List.mem_cons.1 h with h2 | h2
                · exact absurd h2 (by decide)
                · exact h2
            · right
              intro h2
              apply hlast
              rw [← hsplit, List.getLast?_append, getLast?_cons_ne hu, h2]
              rfl
          have hlensplit : rem.length =
              (rem.takeWhile notDelim).length + 1 + u.length := by
            conv_lhs => rw [← hsplit]
            simp only [List.length_append, List.length_cons]
            omega
          obtain ⟨l2, hl2⟩ := ih u (by omega) hok2
          refine ⟨rem.takeWhile notDelim :: l2, ?_⟩
          rw [specCollect_space_case hd hu, hl2]
          rfl
      · subst hcl
        exact ⟨[rem.drop 1], specCollect_colon_case hd⟩

lemma specCollect_trailing :
    ∀ (n : Nat) (pre rest : List Char), pre.length ≤ n → ':' ∉ pre →
      pre.getLast? = some ' ' →
      ∃ l, specCollect (pre ++ ':' :: rest) = some l ∧ l ≠ [] ∧
        l.getLast? = some rest ∧ l.length = countArgs pre + 1 := by
  intro n
  induction n with
  | zero =>
    intro pre rest hlen hcol hlast
    have hpre : pre = [] := List.length_eq_zero.1 (Nat.le_zero.1 hlen)
    subst hpre
    simp at hlast
  | succ n ih =>
    intro pre rest hlen hcol hlast
    have hdne : pre.dropWhile notDelim ≠ [] := by
      intro h0
      have htw : pre.takeWhile notDelim = pre := by
        have h2 := List.takeWhile_append_dropWhile (p := notDelim) (l := pre)
        rw [h0, List.append_nil] at h2
        exact h2
      obtain ⟨ys, hys⟩ := List.getLast?_eq_some_iff.1 hlast
      have hsp : (' ' : Char) ∈ pre := by rw [hys]; simp
      have := mem_takeWhile_notDelim (htw.symm ▸ hsp)
      simp [notDelim] at this
    obtain ⟨c, pre2, hd⟩ : ∃ c pre2, pre.dropWhile notDelim = c :: pre2 := by
      cases hdp : pre.dropWhile notDelim with
      | nil => exact absurd hdp hdne
      | cons c pre2 => exact ⟨c, pre2, rfl⟩
    have hsplit := List.takeWhile_append_dropWhile (p := notDelim) (l := pre)
    rw [hd] at hsplit
    have hcsp : c = ' ' := by
      rcases notDelim_false_iff.1 (dropWhile_head_false hd) with h | h
      · exact h
      · exfalso
        apply hcol
        rw [← hsplit, h]
        simp
    subst hcsp
    have hframe : pre ++ ':' :: rest =
        pre.takeWhile notDelim ++ ' ' :: (pre2 ++ ':' :: rest) := by
      conv_lhs => rw [← hsplit]
      simp
    have hdw : (pre ++ ':' :: rest).dropWhile notDelim =
        ' ' :: (pre2 ++ ':' :: rest) := by
      rw [hframe, dropWhile_append_of_all fun x hx => mem_takeWhile_notDelim hx,
        List.dropWhile_cons, if_neg (by decide)]
    have htw2 : (pre ++ ':' :: rest).takeWhile notDelim = pre.takeWhile notDelim := by
      rw [hframe]
      exact takeWhile_append_cons_of_all (fun x hx => mem_takeWhile_notDelim hx) (by decide)
    have hune : pre2 ++ ':' :: rest ≠ [] := by simp
    have hsc := specCollect_space_case hdw hune
    rw [htw2] at hsc
    have hlenpre : pre.length = (pre.takeWhile notDelim).length + 1 + pre2.length := by
      conv_lhs => rw [← hsplit]
      simp only [List.length_append, List.length_cons]
      omega
    by_cases hp2 : pre2 = []
    · subst hp2
      have hdw2 : (':' :: rest).dropWhile notDelim = ':' :: rest := by
        rw [List.dropWhile_cons, if_neg (by decide)]
      have hcc : specCollect (':' :: rest) = some [rest] := by
        rw [specCollect_colon_case hdw2]
        simp
      simp only [List.nil_append] at hsc
      rw [hcc] at hsc
      have hca : countArgs pre = 1 := by
        conv_lhs => rw [← hsplit]
        rw [countArgs_append_notDelim fun d hd2 => mem_takeWhile_notDelim hd2]
        simp [countArgs]
      refine ⟨[pre.takeWhile notDelim, rest], ?_, by simp, by simp, by simp [hca]⟩
      rw [hsc]
      rfl
    · have hcol2 : ':' ∉ pre2 := by
        intro h2
        apply hcol
        rw [← hsplit]
        simp [h2]
      have hlast2 : pre2.getLast? = some ' ' := by
        rw [← hsplit, List.getLast?_append, getLast?_cons_ne hp2] at hlast
        cases hgu : pre2.getLast? with
        | none => exact absurd (List.getLast?_eq_none_iff.1 hgu) hp2
        | some a =>
          rw [hgu] at hlast
          simp only [Option.or_some] at hlast
          exact hlast
      obtain ⟨l2, hl2, hne2, hlastl2, hlenl2⟩ := ih pre2 rest (by omega) hcol2 hlast2
      refine ⟨pre.takeWhile notDelim :: l2, ?_, by simp, ?_, ?_⟩
      · rw [hsc, hl2]
        rfl
      · rw [getLast?_cons_ne hne2]
        exact hlastl2
      · have hca : countArgs pre = countArgs pre2 + 1 := by
          conv_lhs => rw [← hsplit]
          rw [countArgs_append_notDelim fun d hd2 => mem_takeWhile_notDelim hd2]
          simp [countArgs]
        simp only [List.length_cons]
        omega

lemma countArgs_append_colon {pre rest : List Char} (h : ':' ∉ pre) :
    countArgs (pre ++ ':' :: rest) = countArgs pre := by
  induction pre with
  | nil => simp [countArgs]
  | cons c pre ih =>
    have hc : c ≠ ':' := fun h2 => h (h2 ▸ List.mem_cons_self c pre)
    have ih2 := ih fun h2 => h (List.mem_cons_of_mem c h2)
    by_cases hsp : c = ' '
    · simp [countArgs, hsp, ih2]
    · simp [countArgs, hsp, hc, ih2]

lemma countArgs_eq_specSpaces : ∀ s : List Char, countArgs s = specSpacesBeforeColon s := by
  intro s
  induction s with
  | nil => rfl
  | cons c s ih =>
    by_cases hsp : c = ' '
    · subst hsp
      simp [countArgs, specSpacesBeforeColon, List.takeWhile_cons, List.count_cons] at *
      omega
    · by_cases hcl : c = ':'
      · subst hcl
        simp [countArgs, specSpacesBeforeColon, List.takeWhile_cons]
      · simp [countArgs, specSpacesBeforeColon, List.takeWhile_cons, List.count_cons,
          hsp, hcl] at *
        omega

lemma countArgs_pos {pre : List Char} (hsp : ' ' ∈ pre) (hcol : ':' ∉ pre) :
    1 ≤ countArgs pre := by
  induction pre with
  | nil => simp at hsp
  | cons c pre ih =>
    by_cases hc : c = ' '
    · simp [countArgs, hc]
    · have hc2 : c ≠ ':' := fun h => hcol (h ▸ List.mem_cons_self c pre)
      have hsp2 : ' ' ∈ pre := by
        rcases List.mem_cons.1 hsp with h | h
        · exact absurd h.symm hc
        · exact h
      have := ih hsp2 fun h => hcol (List.mem_cons_of_mem c h)
      simp only [countArgs, if_neg hc, if_neg hc2]
      omega

lemma countArgs_no_space {s : List Char} (h : ' ' ∉ s) : countArgs s = 0 := by
  induction s with
  | nil => rfl
  | cons c s ih =>
    have hc : c ≠ ' ' := fun h2 => h (h2 ▸ List.mem_cons_self c s)
    by_cases hcl : c = ':'
    · simp [countArgs, hc, hcl]
    · simp [countArgs, hc, hcl, ih fun h2 => h (List.mem_cons_of_mem c h2)]

lemma getD_map_some {args : List (List Char)} {i : Nat} (h : i < args.length) :
    (args.map some).getD i none = some (args.getD i []) := by
  induction args generalizing i with
  | nil => simp at h
  | cons a args ih =>
    cases i with
    | zero => rfl
    | succ i =>
      simp only [List.map_cons, List.getD_cons_succ]
      exact ih (by simpa using h)

lemma getD_set_none {args : List (Option (List Char))} {i : Nat} :
    (args.set i none).getD i none = none := by
  induction args generalizing i with
  | nil => simp
  | cons a args ih =>
    cases i with
    | zero => rfl
    | succ i =>
      simp only [List.set_cons_succ, List.getD_cons_succ]
      exact ih

lemma parse_message_args_map {s : List Char} {m : msg} (h : parse_message s = some m) :
    ∃ args : List (List Char), m.args = args.map some := by
  rw [parse_message_eq_spec] at h
  cases hsc : specCollect s with
  | none => rw [hsc] at h; exact absurd h (by simp)
  | some l =>
    rw [hsc] at h
    cases l with
    | nil => exact absurd h (by simp)
    | cons cmd rest =>
      have h2 : some (⟨cmd, rest.map some⟩ : msg) = some m := h
      injection h2 with h3
      exact ⟨rest, by rw [← h3]⟩

/-! ### Claim theorems for the message parser -/

/-- C3: parsing `"USER bob 0 0 :Bob Smith"` yields command `USER`, argument
0 = `bob` and argument 3 = `Bob Smith` — one final argument despite the
embedded space, with the leading colon stripped; and in general, whenever
a token begins with a colon (the frame splits as `pre ++ ':' :: rest` with
no earlier colon and a space right before the colon), everything after the
colon up to the end of the frame becomes the final argument and scanning
stops (the argument count is exactly the pass-1 count, nothing in `rest`
opens further arguments). -/
theorem trailing_parameter :
    parse_message "USER bob 0 0 :Bob Smith".toList =
      some ⟨"USER".toList,
        [some "bob".toList, some "0".toList, some "0".toList, some "Bob Smith".toList]⟩ ∧
    ∀ (pre rest : List Char), ':' ∉ pre → pre.getLast? = some ' ' →
      ∃ m, parse_message (pre ++ ':' :: rest) = some m ∧
        m.args ≠ [] ∧ m.args.getLast? = some (some rest) ∧
        m.args.length = countArgs (pre ++ ':' :: rest) := by
  constructor
  · decide
  · intro pre rest hcol hlast
    obtain ⟨l, hl, hne, hlast2, hlen⟩ :=
      specCollect_trailing pre.length pre rest (Nat.le_refl _) hcol hlast
    have hspmem : ' ' ∈ pre := by
      obtain ⟨ys, hys⟩ := List.getLast?_eq_some_iff.1 hlast
      rw [hys]
      simp
    have hpos := countArgs_pos hspmem hcol
    rw [parse_message_eq_spec, hl]
    cases l with
    | nil => exact absurd rfl hne
    | cons cmd args =>
      have hargsne : args ≠ [] := by
        intro h0
        subst h0
        simp only [List.length_cons, List.length_nil] at hlen
        omega
      refine ⟨⟨cmd, args.map some⟩, rfl, by simp [hargsne], ?_, ?_⟩
      · rw [getLast?_cons_ne hargsne] at hlast2
        simp only [List.getLast?_map, hlast2]
        rfl
      · simp only [List.length_map]
        rw [countArgs_append_colon hcol]
        simp only [List.length_cons] at hlen
        omega

/-- Witness for C3 at the concrete USER frame of the claim. -/
theorem trailing_parameter_witness :
    (':' ∉ "USER bob 0 0 ".toList) ∧
    "USER bob 0 0 ".toList.getLast? = some ' ' ∧
    ∃ m, parse_message ("USER bob 0 0 ".toList ++ ':' :: "Bob Smith".toList) = some m ∧
      m.args ≠ [] ∧ m.args.getLast? = some (some "Bob Smith".toList) ∧
      m.args.length = countArgs ("USER bob 0 0 ".toList ++ ':' :: "Bob Smith".toList) :=
  ⟨by decide, by decide, trailing_parameter.2 _ _ (by decide) (by decide)⟩

/-- C4 (amended): the pass-1 space count equals the total number of
argument slots the parser produces — including the colon-introduced
trailing argument, which occupies the final counted slot — and that count
is exactly the number of ASCII spaces before the first colon. -/
theorem arg_count_spaces (s : List Char) (m : msg) (h : parse_message s = some m) :
    m.args.length = countArgs s ∧ countArgs s = specSpacesBeforeColon s := by
  constructor
  · rw [parse_message_eq_spec] at h
    cases hsc : specCollect s with
    | none => rw [hsc] at h; exact absurd h (by simp)
    | some l =>
      rw [hsc] at h
      cases l with
      | nil => exact absurd h (by simp)
      | cons cmd args =>
        have h2 : some (⟨cmd, args.map some⟩ : msg) = some m := h
        injection h2 with h3
        have hlen := specCollect_length s.length s (cmd :: args) (Nat.le_refl _) hsc
        rw [← h3]
        simp only [List.length_map]
        simp only [List.length_cons] at hlen
        omega
  · exact countArgs_eq_specSpaces s

/-- Witness for C4's amended statement on a concrete frame. -/
theorem arg_count_spaces_witness :
    parse_message "CMD a b".toList =
      some ⟨"CMD".toList, [some "a".toList, some "b".toList]⟩ ∧
    ((⟨"CMD".toList, [some "a".toList, some "b".toList]⟩ : msg).args.length
        = countArgs "CMD a b".toList ∧
      countArgs "CMD a b".toList = specSpacesBeforeColon "CMD a b".toList) :=
  ⟨by decide, arg_count_spaces _ _ (by decide)⟩

/-- Counterexample to C4 as stated: for the frame `"CMD :x"` there is one
space before the first colon, yet the parser produces exactly one argument
and that argument is the colon-introduced trailing one (it equals the text
after the colon), so the number of space-delimited arguments excluding the
trailing argument is `1 - 1 = 0 ≠ 1`. -/
theorem arg_count_spaces_cex :
    specSpacesBeforeColon "CMD :x".toList = 1 ∧
    parse_message "CMD :x".toList = some ⟨"CMD".toList, [some "x".toList]⟩ ∧
    "CMD :x".toList.drop 5 = "x".toList ∧
    ¬((1 : Nat) - 1 = 1) := by decide

/-- C10 (amended): `parse_message` returns a structured message for the
empty frame (empty command, no arguments), for every frame containing a
colon or not ending in a space, and for every frame without spaces (then
with an empty argument list).  Frames that end in a space with no earlier
colon are exactly where the reference implementation crashes instead. -/
theorem parse_total_amended :
    parse_message ([] : List Char) = some ⟨[], []⟩ ∧
    (∀ s : List Char, ':' ∈ s ∨ s.getLast? ≠ some ' ' →
      ∃ m, parse_message s = some m) ∧
    (∀ s : List Char, ' ' ∉ s → ∃ m, parse_message s = some m ∧ m.args = []) := by
  refine ⟨by decide, ?_, ?_⟩
  · intro s hs
    obtain ⟨l, hl⟩ := specCollect_total s.length s (Nat.le_refl _) hs
    rw [parse_message_eq_spec, hl]
    cases l with
    | nil =>
      have := specCollect_length s.length s [] (Nat.le_refl _) hl
      simp only [List.length_nil] at this
      omega
    | cons cmd args => exact ⟨_, rfl⟩
  · intro s hs
    have hs2 : ':' ∈ s ∨ s.getLast? ≠ some ' ' := by
      right
      intro h
      obtain ⟨ys, hys⟩ := List.getLast?_eq_some_iff.1 h
      exact hs (by rw [hys]; simp)
    obtain ⟨l, hl⟩ := specCollect_total s.length s (Nat.le_refl _) hs2
    have hlen := specCollect_length s.length s l (Nat.le_refl _) hl
    have hca : countArgs s = 0 := countArgs_no_space hs
    rw [parse_message_eq_spec, hl]
    cases l with
    | nil =>
      simp only [List.length_nil] at hlen
      omega
    | cons cmd args =>
      cases args with
      | nil => exact ⟨⟨cmd, []⟩, rfl, rfl⟩
      | cons a args2 =>
        rw [hca] at hlen
        simp only [List.length_cons] at hlen
        omega

/-- Witness for C10's amended statement. -/
theorem parse_total_amended_witness :
    ((':' ∈ "NICK".toList ∨ "NICK".toList.getLast? ≠ some ' ') ∧
      ∃ m, parse_message "NICK".toList = some m) ∧
    (' ' ∉ "PING".toList ∧ ∃ m, parse_message "PING".toList = some m ∧ m.args = []) :=
  ⟨⟨by decide, parse_total_amended.2.1 _ (by decide)⟩,
   ⟨by decide, parse_total_amended.2.2 _ (by decide)⟩⟩

/-- Counterexample to C10 as stated: on the frame `"A "` (ending in a
space, no colon) the reference implementation reaches an iteration with
`arg_len = 0` and calls `memcpy` with size `(size_t)(-1)` — it does not
return a structured message.  In the model this is the `none` result. -/
theorem parse_crash_cex : parse_message ['A', ' '] = none := by decide

/-- C7: on a parsed message, the first retrieval of any in-range argument
returns that argument's value, and a second retrieval at the same index
returns the absent value (`get_arg` nulls the slot). -/
theorem move_once_retrieval (s : List Char) (m : msg) (i : Nat)
    (h : parse_message s = some m) (hi : i < m.args.length) :
    ∃ v, m.args.getD i none = some v ∧ (get_arg m i).1 = some v ∧
      (get_arg (get_arg m i).2 i).1 = none := by
  obtain ⟨args, hargs⟩ := parse_message_args_map h
  have hlen : i < args.length := by
    rw [hargs, List.length_map] at hi
    exact hi
  refine ⟨args.getD i [], ?_, ?_, ?_⟩
  · rw [hargs]
    exact getD_map_some hlen
  · show m.args.getD i none = _
    rw [hargs]
    exact getD_map_some hlen
  · show (m.args.set i none).getD i none = none
    exact getD_set_none

/-- Witness for C7 at `"NICK alice"`, index 0. -/
theorem move_once_retrieval_witness :
    parse_message "NICK alice".toList = some ⟨"NICK".toList, [some "alice".toList]⟩ ∧
    ∃ v, (⟨"NICK".toList, [some "alice".toList]⟩ : msg).args.getD 0 none = some v ∧
      (get_arg ⟨"NICK".toList, [some "alice".toList]⟩ 0).1 = some v ∧
      (get_arg (get_arg ⟨"NICK".toList, [some "alice".toList]⟩ 0).2 0).1 = none :=
  ⟨by decide, move_once_retrieval "NICK alice".toList _ 0 (by decide) (by decide)⟩

/-- C5 is a defect in the code: `parse_message "NICK"` yields zero
argument slots while the NICK handler retrieves index 0, and
`parse_message "USER a"` yields one slot while the USER handler retrieves
index 3 — both `get_arg` calls read outside `m->args` in the C code. -/
theorem insufficient_args_out_of_bounds :
    (∃ m, parse_message "NICK".toList = some m ∧
      0 ∈ handlerAccesses m.command ∧ m.args.length = 0) ∧
    (∃ m, parse_message "USER a".toList = some m ∧
      3 ∈ handlerAccesses m.command ∧ ¬3 < m.args.length) := by
  constructor
  · exact ⟨⟨"NICK".toList, []⟩, by decide, by decide, by decide⟩
  · exact ⟨⟨"USER".toList, [some "a".toList]⟩, by decide, by decide, by decide⟩

/-! ### Frame-splitter lemmas -/

lemma pbmLoopF_messages (buffer : List Char) (bo : Nat) :
    ∀ (fuel i mso : Nat) (acc : List (List Char)),
      (pbmLoopF buffer bo fuel i mso acc).1 =
        acc ++ segmentsFrom buffer mso (boundaryIndicesF buffer bo fuel i) := by
  intro fuel
  induction fuel with
  | zero => intro i mso acc; simp [pbmLoopF, boundaryIndicesF, segmentsFrom]
  | succ fuel ih =>
    intro i mso acc
    simp only [pbmLoopF, boundaryIndicesF]
    by_cases h1 : i + 1 < bo
    · simp only [if_pos h1]
      by_cases h2 : buffer.getD i ' ' = '\r' ∧ buffer.getD (i + 1) ' ' = '\n'
      · simp only [if_pos h2, ih, List.singleton_append, segmentsFrom]
        simp [List.append_assoc]
      · simp only [if_neg h2, ih, List.nil_append]
    · simp only [if_neg h1]
      simp [segmentsFrom]

lemma boundaryIndicesF_mem (buffer : List Char) (bo : Nat) :
    ∀ (fuel i j : Nat), bo ≤ fuel + i →
      (j ∈ boundaryIndicesF buffer bo fuel i ↔
        (i ≤ j ∧ j + 1 < bo ∧ buffer.getD j ' ' = '\r' ∧
          buffer.getD (j + 1) ' ' = '\n')) := by
  intro fuel
  induction fuel with
  | zero =>
    intro i j hfi
    simp only [boundaryIndicesF, List.not_mem_nil, false_iff]
    rintro ⟨h1, h2, _⟩
    omega
  | succ fuel ih =>
    intro i j hfi
    simp only [boundaryIndicesF]
    by_cases h1 : i + 1 < bo
    · rw [if_pos h1, List.mem_append, ih (i + 1) j (by omega)]
      by_cases h2 : buffer.getD i ' ' = '\r' ∧ buffer.getD (i + 1) ' ' = '\n'
      · rw [if_pos h2]
        simp only [List.mem_singleton]
        constructor
        · rintro (rfl | ⟨h3, h4, h5⟩)
          · exact ⟨Nat.le_refl _, h1, h2.1, h2.2⟩
          · exact ⟨by omega, h4, h5⟩
        · rintro ⟨h3, h4, h5, h6⟩
          by_cases hj : j = i
          · left; exact hj
          · right; exact ⟨by omega, h4, h5, h6⟩
      · rw [if_neg h2]
        simp only [List.not_mem_nil, false_or]
        constructor
        · rintro ⟨h3, h4, h5⟩
          exact ⟨by omega, h4, h5⟩
        · rintro ⟨h3, h4, h5, h6⟩
          refine ⟨?_, h4, h5, h6⟩
          rcases Nat.eq_or_lt_of_le h3 with rfl | h7
          · exact absurd ⟨h5, h6⟩ h2
          · omega
    · rw [if_neg h1]
      simp only [List.not_mem_nil, false_iff]
      rintro ⟨h3, h4, _⟩
      omega

lemma pbmLoopF_no_crlf (buffer : List Char) (bo : Nat)
    (hno : ∀ k, k + 1 < bo →
      ¬(buffer.getD k ' ' = '\r' ∧ buffer.getD (k + 1) ' ' = '\n')) :
    ∀ (fuel i mso : Nat) (acc : List (List Char)),
      pbmLoopF buffer bo fuel i mso acc = (acc, mso) := by
  intro fuel
  induction fuel with
  | zero => intro i mso acc; rfl
  | succ fuel ih =>
    intro i mso acc
    simp only [pbmLoopF]
    by_cases h1 : i + 1 < bo
    · rw [if_pos h1, if_neg (hno i h1)]
      exact ih (i + 1) mso acc
    · rw [if_neg h1]

/-! ### Claim theorems for framing and the connection loop -/

/-- C2 (amended): the frames dispatched by `process_buffered_messages` are
exactly the segments between consecutive recognized boundaries, where a
boundary is recognized at every index `j` with `1 ≤ j` and `j + 1` below
the write offset at which the buffer holds CR LF — each message runs from
the end of the previous boundary (or the buffer start) up to and excluding
its CR LF, in order.  A CR LF at index 0 is not recognized (the scan
starts at index 1), so an empty message at the very start of the buffer is
missed; a nonempty message beginning at offset 0 is detected since its CR
sits at an index of at least 1. -/
theorem frame_boundaries (buffer : List Char) (bs : Nat) :
    (process_buffered_messages buffer bs buffer.length).1 =
      segmentsFrom buffer 0 (boundaryIndices buffer buffer.length 1) ∧
    ∀ j, j ∈ boundaryIndices buffer buffer.length 1 ↔
      (1 ≤ j ∧ j + 1 < buffer.length ∧ buffer.getD j ' ' = '\r' ∧
        buffer.getD (j + 1) ' ' = '\n') := by
  constructor
  · have h := pbmLoopF_messages buffer buffer.length buffer.length 1 0 []
    simp only [process_buffered_messages, boundaryIndices]
    by_cases hc : (pbmLoopF buffer buffer.length buffer.length 1 0 []).2 = 0 ∧
        buffer.length = bs
    · rw [if_pos hc]
      simpa using h
    · rw [if_neg hc]
      simpa using h
  · intro j
    rw [boundaryIndices]
    exact boundaryIndicesF_mem buffer buffer.length buffer.length 1 j (by omega)

/-- Counterexample to C2 as stated: the buffer `"\r\nX"` with write offset
3 holds CR at index 0 and LF at index 1 with 0 + 1 < 3, so the claim
demands a recognized boundary at index 0 (dispatching an empty message) —
but the splitter dispatches nothing: the scan never looks at index 0. -/
theorem frame_boundary_zero_missed :
    (['\r', '\n', 'X'].getD 0 ' ' = '\r' ∧ ['\r', '\n', 'X'].getD 1 ' ' = '\n' ∧
      (0 : Nat) + 1 < 3) ∧
    (process_buffered_messages ['\r', '\n', 'X'] 1024 3).1 = [] ∧
    (process_buffered_messages ['\r', '\n', 'X'] 1024 3).2.1 = 0 := by decide

/-- C1 is a defect in the code: the same twelve-byte stream consisting of
the two CRLF-terminated messages `AB` and `CDEFGH`, read once versus read
as `"AB\r\nCDEFGH"` followed by `"\r\n"`, dispatches different messages.
The compaction `memcpy(buffer, buffer + consumed, consumed)` copies
`consumed` bytes instead of the remaining `buffer_offset - consumed`, so
the retained tail `CDEFGH` is corrupted to `CDEFCD` whenever the tail is
longer than the consumed prefix. -/
theorem compaction_corrupts_partition :
    (runPartition 1024 ["AB\r\nCDEFGH\r\n".toList] []).1 =
      ["AB".toList, "CDEFGH".toList] ∧
    (runPartition 1024 ["AB\r\nCDEFGH".toList, "\r\n".toList] []).1 =
      ["AB".toList, "CDEFCD".toList] ∧
    "AB\r\nCDEFGH".toList ++ "\r\n".toList = "AB\r\nCDEFGH\r\n".toList ∧
    (runPartition 1024 ["AB\r\nCDEFGH".toList, "\r\n".toList] []).1 ≠
      (runPartition 1024 ["AB\r\nCDEFGH\r\n".toList] []).1 := by decide

/-- C9 is a defect in the code: when the buffer is completely full (write
offset equals the capacity `bs`) and no CR LF pair occurs anywhere in it,
the splitter does drop all buffered bytes (the whole buffer is reported
consumed) and does emit exactly one WARNING log event — but the loop does
not safely continue: the compaction then executes
`memcpy(buffer, buffer + buffer_size, buffer_size)`, reading
`buffer_size` bytes wholly outside the `buffer_size`-byte allocation,
undefined behaviour that can crash the process (the `crashed` outcome),
rather than the intended no-op. -/
theorem buffer_overflow_drop (buffer : List Char) (bs : Nat)
    (hbs : 0 < bs)
    (hfull : buffer.length = bs)
    (hno : ∀ k, k + 1 < bs →
      ¬(buffer.getD k ' ' = '\r' ∧ buffer.getD (k + 1) ' ' = '\n')) :
    process_buffered_messages buffer bs bs = ([], bs, 1) ∧
    compact buffer bs bs = none ∧
    process_client_messages_step [] bs (.data buffer) = .crashed [] 1 := by
  have hpbm : process_buffered_messages buffer bs bs = ([], bs, 1) := by
    simp only [process_buffered_messages]
    rw [pbmLoopF_no_crlf buffer bs hno bs 1 0 [], if_pos (by simp)]
  have hcomp : compact buffer bs bs = none := by
    rw [compact, if_pos ⟨hbs, by omega⟩]
  refine ⟨hpbm, hcomp, ?_⟩
  simp only [process_client_messages_step, List.nil_append, hfull, hpbm]
  rw [hcomp]

/-- Witness for C9 on a concrete full buffer with no CR LF. -/
theorem buffer_overflow_drop_witness :
    process_buffered_messages "AAAA".toList 4 4 = ([], 4, 1) ∧
    compact "AAAA".toList 4 4 = none ∧
    process_client_messages_step [] 4 (.data "AAAA".toList) = .crashed [] 1 :=
  buffer_overflow_drop "AAAA".toList 4 (by decide) (by decide)
    (by
      intro k hk
      have h3 : k < 3 := by omega
      interval_cases k <;> decide)

/-- C8 is a defect in the code: a failed read makes the connection loop
call `exit(1)`, which terminates the entire server process; the loop has
no per-connection close path at all (no outcome is `closeConnection`, the
resources are never released), and a closed socket (a zero-byte read)
just continues the loop instead of terminating it. -/
theorem read_error_exits_process :
    process_client_messages_step [] 1024 .readError = .exitProcess ∧
    (∀ (v : List Char) (bs : Nat) (r : ReadResult),
      process_client_messages_step v bs r ≠ .closeConnection) ∧
    process_client_messages_step [] 1024 (.data []) = .continued [] [] 0 := by
  refine ⟨rfl, ?_, by decide⟩
  intro v bs r h
  cases r with
  | readError => exact StepOutcome.noConfusion h
  | data chunk =>
    simp only [process_client_messages_step] at h
    split at h
    · exact StepOutcome.noConfusion h
    · exact StepOutcome.noConfusion h

/-! ### Registration lemmas -/

lemma process_message_cases (s : List Char) (c c1 : client) (w : Nat)
    (h : process_message s c = some (c1, w)) :
    (w = 1 ↔ (c1.nick.isSome ∧ c1.username.isSome ∧ c.welcomeMessageSent = false)) ∧
    (w = 1 → c1.welcomeMessageSent = true) ∧
    (c.welcomeMessageSent = true → c1.welcomeMessageSent = true ∧ w = 0) ∧
    w ≤ 1 ∧
    (w = 0 → c1.welcomeMessageSent = c.welcomeMessageSent) := by
  rw [process_message] at h
  cases hp : parse_message s with
  | none => rw [hp] at h; exact absurd h (by simp)
  | some m =>
    rw [hp] at h
    simp only [] at h
    split_ifs at h with hcmd1 hcond hcmd2 hcond2 hcond3 <;>
      simp only [send_welcome_message, Option.some.injEq, Prod.mk.injEq] at h <;>
      obtain ⟨hc1, hw⟩ := h <;>
      subst hc1 <;>
      subst hw <;>
      simp_all

lemma processList_flag_true : ∀ (msgs : List (List Char)) (c : client),
    c.welcomeMessageSent = true →
    (processList msgs c).2 = 0 ∧ (processList msgs c).1.welcomeMessageSent = true := by
  intro msgs
  induction msgs with
  | nil => intro c h; exact ⟨rfl, h⟩
  | cons s msgs ih =>
    intro c h
    simp only [processList]
    cases hp : process_message s c with
    | none => exact ⟨rfl, h⟩
    | some p =>
      obtain ⟨c1, w⟩ := p
      have hc := process_message_cases s c c1 w hp
      obtain ⟨hflag, hw⟩ := hc.2.2.1 h
      obtain ⟨hr2, hr1⟩ := ih c1 hflag
      simp only []
      constructor
      · rw [hr2, hw]
      · exact hr1

lemma processList_main : ∀ (msgs : List (List Char)) (c : client),
    c.welcomeMessageSent = false →
    (processList msgs c).2 ≤ 1 ∧
    ((processList msgs c).1.welcomeMessageSent = true ↔ (processList msgs c).2 = 1) := by
  intro msgs
  induction msgs with
  | nil =>
    intro c h
    refine ⟨by simp [processList], ?_⟩
    simp only [processList, h]
    simp
  | cons s msgs ih =>
    intro c h
    simp only [processList]
    cases hp : process_message s c with
    | none =>
      refine ⟨by simp, ?_⟩
      simp [h]
    | some p =>
      obtain ⟨c1, w⟩ := p
      have hc := process_message_cases s c c1 w hp
      have hwle := hc.2.2.2.1
      simp only []
      cases hw : w with
      | zero =>
        have hflag : c1.welcomeMessageSent = false := by
          rw [hc.2.2.2.2 hw, h]
        obtain ⟨hle, hiff⟩ := ih c1 hflag
        constructor
        · omega
        · rw [hiff]
          omega
      | succ w0 =>
        have hw0 : w0 = 0 := by omega
        subst hw0
        have hw1 : w = 1 := by omega
        have hflag : c1.welcomeMessageSent = true := hc.2.1 hw1
        obtain ⟨hr2, hr1⟩ := processList_flag_true msgs c1 hflag
        constructor
        · omega
        · rw [hr2]
          simp [hr1]

/-! ### Claim theorem for registration -/

/-- C6: per connection the welcome reply is emitted exactly once — a step
emits a welcome precisely when after it nick and username are both set
while the flag was still false before it (the first such moment); the
emitting step sets the flag, a set flag forces zero further emissions and
stays set, and any run from the initial state emits at most one welcome,
the flag recording whether that single emission has happened. -/
theorem registration_welcome_once :
    (∀ msgs : List (List Char),
      (processList msgs initClient).2 ≤ 1 ∧
      ((processList msgs initClient).1.welcomeMessageSent = true ↔
        (processList msgs initClient).2 = 1)) ∧
    (∀ (s : List Char) (c c1 : client) (w : Nat),
      process_message s c = some (c1, w) →
      (w = 1 ↔ (c1.nick.isSome ∧ c1.username.isSome ∧ c.welcomeMessageSent = false)) ∧
      (w = 1 → c1.welcomeMessageSent = true) ∧
      (c.welcomeMessageSent = true → c1.welcomeMessageSent = true ∧ w = 0) ∧
      w ≤ 1) := by
  constructor
  · intro msgs
    exact processList_main msgs initClient rfl
  · intro s c c1 w h
    have hc := process_message_cases s c c1 w h
    exact ⟨hc.1, hc.2.1, hc.2.2.1, hc.2.2.2.1⟩

/-- Witness for C6: the spec's own scenario — `NICK alice`, then
`USER a 0 0 :A`, then an unrelated third command — emits exactly one
welcome, and the step lemma instantiated at the first message. -/
theorem registration_welcome_once_witness :
    (processList ["NICK alice".toList, "USER a 0 0 :A".toList, "FOO".toList]
        initClient).2 = 1 ∧
    ((processList ["NICK alice".toList, "USER a 0 0 :A".toList, "FOO".toList]
        initClient).2 ≤ 1 ∧
      ((processList ["NICK alice".toList, "USER a 0 0 :A".toList, "FOO".toList]
          initClient).1.welcomeMessageSent = true ↔
        (processList ["NICK alice".toList, "USER a 0 0 :A".toList, "FOO".toList]
          initClient).2 = 1)) ∧
    ((0 = 1 ↔ ((⟨some "alice".toList, none, none, false⟩ : client).nick.isSome ∧
        (⟨some "alice".toList, none, none, false⟩ : client).username.isSome ∧
        initClient.welcomeMessageSent = false)) ∧
      (0 = 1 → (⟨some "alice".toList, none, none, false⟩ : client).welcomeMessageSent = true) ∧
      (initClient.welcomeMessageSent = true →
        (⟨some "alice".toList, none, none, false⟩ : client).welcomeMessageSent = true ∧ 0 = 0) ∧
      0 ≤ 1) :=
  ⟨by decide,
   registration_welcome_once.1 _,
   registration_welcome_once.2 "NICK alice".toList initClient
     ⟨some "alice".toList, none, none, false⟩ 0 (by decide)⟩

end Chirc
